import Mathlib

/-!
Shallow embedding of `py_algos/src/py_algos_eseidinger/complexity/varianttree.py`.

Symbols are modelled as their string names (the code sorts attributes by
`str(symbol)`).  A `Condition` is modelled by the list of terms of the DNF of
its boolean expression, each term being the list of its literals
(symbol, polarity); this is exactly the data `Condition.to_possible_variants`
inspects through sympy's `to_dnf` / `Or.args` / `term.has`.  sympy's
`expr.has(s)` is true when `s` occurs anywhere in `expr` (also under a
negation), and `expr.has(~s)` is true when the literal `~s` occurs; both are
reproduced below on the literal lists.
-/

set_option autoImplicit false

namespace VariantTree

abbrev Sym := String

/-- `Attribute`: a symbol with an optional boolean value. -/
structure Attr where
  symbol : Sym
  value : Option Bool
deriving DecidableEq

/-- `Variant`: a list of attributes. -/
structure Variant where
  attrs : List Attr
deriving DecidableEq

/-- Lexicographic comparison of symbol names by code point, the order Python's
string `<` uses when sorting by `str(symbol)`. -/
def symLtB : List Char → List Char → Bool
  | [], [] => false
  | [], _ :: _ => true
  | _ :: _, [] => false
  | a :: as, b :: bs =>
    if a.toNat < b.toNat then true
    else if b.toNat < a.toNat then false
    else symLtB as bs

def symLt (a b : Sym) : Bool := symLtB a.data b.data

/-- Stable insertion used by `sortAttrs`, ordering by the symbol's name, as
Python's `sorted(self.attributes, key=lambda x: str(x.symbol))` does. -/
def insertAttr (a : Attr) : List Attr → List Attr
  | [] => [a]
  | b :: l => if symLt a.symbol b.symbol then a :: b :: l else b :: insertAttr a l

/-- `Variant.get_sorted_attributes`: attributes sorted (stably) by symbol. -/
def sortAttrs (l : List Attr) : List Attr :=
  l.foldl (fun acc a => insertAttr a acc) []

/-- The body of `Variant.is_derived_from_or_equal` after sorting: Python zips
the two sorted attribute lists (truncating at the shorter one) and requires
equal values wherever the second list's attribute has a set value. -/
def dAll (xs ys : List Attr) : Bool :=
  (xs.zip ys).all (fun p =>
    match p.2.value with
    | none => true
    | some b => decide (p.1.value = some b))

/-- `Variant.is_derived_from_or_equal`. -/
def isDerivedFromOrEqual (self other : Variant) : Bool :=
  dAll (sortAttrs self.attrs) (sortAttrs other.attrs)

/-- `Variant.is_possible`: some possible variant is derived from or equal to
this variant. -/
def isPossible (possible : List Variant) (v : Variant) : Bool :=
  possible.any (fun pv => isDerivedFromOrEqual pv v)

/-- `Variant.is_final`: all attributes whose symbol is relevant have a value. -/
def isFinal (v : Variant) (relevant : List Sym) : Bool :=
  v.attrs.all (fun a => if a.symbol ∈ relevant then a.value.isSome else true)

/-- `Variant.is_empty`. -/
def isEmpty (v : Variant) : Bool :=
  v.attrs.all (fun a => a.value.isNone)

/-- `Variant.derive_variants` for a single value combination: every attribute
whose symbol is in `nextSymbols` gets the value at that symbol's index. -/
def deriveOne (v : Variant) (nextSymbols : List Sym) (value : List Bool) : Variant :=
  ⟨v.attrs.map (fun a =>
    if a.symbol ∈ nextSymbols then
      ⟨a.symbol, some (value.getD (nextSymbols.indexOf a.symbol) false)⟩
    else a)⟩

/-- One term of a DNF: its literals as (symbol, polarity) pairs. -/
abbrev Term := List (Sym × Bool)

/-- `Condition`: modelled by the term list of the DNF of its expression
(`terms = dnf.args` when the DNF is an `Or`, else `[dnf]`; hence the
constructor always yields at least one term). -/
structure Condition where
  terms : List Term
deriving DecidableEq

/-- sympy `term.has(sym)`: the symbol occurs in the term, under either
polarity (a negated literal `~s` still contains `s` as a subexpression). -/
def hasSym (t : Term) (s : Sym) : Bool :=
  t.any (fun l => l.1 == s)

/-- sympy `term.has(~sym)`: the term contains the negative literal of `s`. -/
def hasNegLit (t : Term) (s : Sym) : Bool :=
  t.any (fun l => l.1 == s && l.2 == false)

/-- `Condition.to_possible_variants`. -/
def toPossibleVariants (c : Condition) (relevant : List Sym) : List Variant :=
  c.terms.map (fun t =>
    ⟨relevant.map (fun s =>
      if hasSym t s then ⟨s, some true⟩
      else if hasNegLit t s then ⟨s, some false⟩
      else ⟨s, none⟩)⟩)

/-- The relevant symbols of `Variant.solves`: the symbols with a set value,
in attribute order. -/
def relevantSymbols (v : Variant) : List Sym :=
  v.attrs.filterMap (fun a => if a.value.isSome then some a.symbol else none)

/-- `Variant.solves`. -/
def solves (v : Variant) (c : Condition) : Bool :=
  (toPossibleVariants c (relevantSymbols v)).any (fun pv => isDerivedFromOrEqual v pv)

/-- `Condition.check` just delegates to `Variant.solves`. -/
def check (c : Condition) (v : Variant) : Bool :=
  solves v c

/-- `Part`: a named conditional. -/
structure Part where
  name : String
  cond : Condition
deriving DecidableEq

/-- `VariantNode`: current symbols, accumulated variant, conditionals
(populated only at final nodes) and the ordered children. -/
inductive VNode where
  | mk (cs : List Sym) (variant : Variant) (conds : List Part) (children : List VNode)

def VNode.cs : VNode → List Sym
  | ⟨c, _, _, _⟩ => c

def VNode.variant : VNode → Variant
  | ⟨_, v, _, _⟩ => v

def VNode.conds : VNode → List Part
  | ⟨_, _, cd, _⟩ => cd

def VNode.children : VNode → List VNode
  | ⟨_, _, _, ch⟩ => ch

/-- `VariantNode.bool_from_integer`: `bin(value)[2:].zfill(nof_bits)` as a
boolean list, i.e. the `nof_bits` binary digits of `value`, most significant
first (they agree for `value < 2 ^ nof_bits`, the only use in the code). -/
def boolFromInteger (value nofBits : Nat) : List Bool :=
  (List.range nofBits).map (fun j => value.testBit (nofBits - 1 - j))

/-- Decode a most-significant-bit-first boolean vector back to the integer. -/
def bitsToNat (bs : List Bool) : Nat :=
  bs.foldl (fun a b => 2 * a + (if b then 1 else 0)) 0

/-- `VariantNode.create_root_variant`. -/
def createRootVariant (symbolOrder : List (List Sym)) : Variant :=
  ⟨symbolOrder.flatten.map (fun s => ⟨s, none⟩)⟩

/-- The `VariantNode` constructor together with `_create_child_nodes`:
`remaining` is the suffix of `symbol_order` strictly after the group equal to
this node's `current_symbols` (for pairwise-distinct groups this is exactly
what `_get_next_symbols`'s index lookup walks; the empty suffix plays the
role of the caught `IndexError`).  A final node collects the conditionals it
satisfies, in input order; an interior node derives one child per surviving
value combination, in ascending combination order. -/
def build (flat : List Sym) (pvs : List Variant) (conds : List Part)
    (remaining : List (List Sym)) (cs : List Sym) (v : Variant) : VNode :=
  if isFinal v flat then
    ⟨cs, v, conds.filter (fun p => check p.cond v), []⟩
  else
    match remaining with
    | [] => ⟨cs, v, [], []⟩
    | g :: rest =>
      if g.isEmpty then ⟨cs, v, [], []⟩
      else
        let k := g.length
        let ws := ((List.range (2 ^ k)).map
            (fun i => deriveOne v g (boolFromInteger i k))).filter
            (fun w => isPossible pvs w)
        ⟨cs, v, [], ws.map (fun w => build flat pvs conds rest g w)⟩

/-- Build the whole tree from a symbol order, as `main` does: the root node
with the all-`None` root variant. -/
def buildTree (symbolOrder : List (List Sym)) (pvs : List Variant)
    (conds : List Part) : VNode :=
  build symbolOrder.flatten pvs conds symbolOrder [] (createRootVariant symbolOrder)

/-- `VariantNode.get_leafs`, projected to the data of interest (variant and
conditionals), with fuel bounding the recursion depth. -/
def leafsF : Nat → VNode → List (Variant × List Part)
  | 0, _ => []
  | fuel + 1, t =>
    if t.children.isEmpty then [(t.variant, t.conds)]
    else ((t.children.map (leafsF fuel)).flatten)

/-- Preorder serialisation of a tree: label, variant, conditionals and arity
of every node; two trees are structurally identical iff these lists agree. -/
def shapeF : Nat → VNode → List (List Sym × Variant × List Part × Nat)
  | 0, _ => []
  | fuel + 1, t =>
    (t.cs, t.variant, t.conds, t.children.length) :: (t.children.map (shapeF fuel)).flatten

/-- Checks, down to the given depth, that every child of every node is
possible w.r.t. `pvs` and is derived-from-or-equal to its parent's variant. -/
def goodTreeF (pvs : List Variant) : Nat → VNode → Bool
  | 0, _ => true
  | fuel + 1, t =>
    t.children.all (fun c =>
      isPossible pvs c.variant && isDerivedFromOrEqual c.variant t.variant &&
        goodTreeF pvs fuel c)

/-!
Mutable tree model for `collapse`.  The Python tree is a graph of objects with
`children` lists and `parent` back-references, mutated in place; it is
embedded as an arena: a list of node records addressed by index, the root at
index 0.  Node identity (Python's default `__eq__`/`in`) is index equality.
-/

structure ANode where
  cs : List Sym
  variant : Variant
  conds : List Part
  children : List Nat
  parent : Option Nat
deriving DecidableEq

structure Arena where
  nodes : List ANode
deriving DecidableEq

/-- Replace node `i` by `f` of it; out-of-range indices leave the arena
unchanged (`List.set` is then the identity; such indices are never hit on the
arenas the code builds). -/
def setNode (ar : Arena) (i : Nat) (f : ANode → ANode) : Arena :=
  ⟨ar.nodes.set i (f (ar.nodes.getD i ⟨[], ⟨[]⟩, [], [], none⟩))⟩

/-- `VariantNode._find_nodes_having_all_symbols`: depth-first search returning
the node itself when its `current_symbols` equal the searched ones, otherwise
the concatenated results of its children.  `fuel` bounds the depth. -/
def findNodes (ar : Arena) : Nat → Nat → List Sym → List Nat
  | 0, _, _ => []
  | fuel + 1, id, syms =>
    match ar.nodes[id]? with
    | none => []
    | some n =>
      if n.cs = syms then [id]
      else (n.children.map (fun c => findNodes ar fuel c syms)).flatten

/-- `VariantNode._get_path_to_parent_node`: walk `parent` links from `id`
until a member of `parentNodes` (inclusive) or the root is reached. -/
def getPath (ar : Arena) : Nat → Nat → List Nat → List Nat
  | fuel, id, parentNodes =>
    if id ∈ parentNodes then [id]
    else
      match ar.nodes[id]? with
      | none => [id]
      | some n =>
        match n.parent with
        | none => [id]
        | some p =>
          match fuel with
          | 0 => [id]
          | fuel + 1 => id :: getPath ar fuel p parentNodes

def csOf (ar : Arena) (i : Nat) : List Sym :=
  match ar.nodes[i]? with
  | none => []
  | some n => n.cs

/-- `VariantNode._compact_path`: collect the `current_symbols` along the path
(tail first), reverse them, detach the head from its parent (tolerating that
it was already removed—`List.erase` removes the first occurrence and is a
no-op when absent, like the caught `ValueError`), re-attach the tail there
and relabel it. -/
def compactPath (ar : Arena) (path : List Nat) : Arena :=
  let newSymbols := ((path.map (csOf ar)).flatten).reverse
  let head := path.getLastD 0
  let tail := path.headD 0
  match (match ar.nodes[head]? with | none => none | some n => n.parent) with
  | none => ar
  | some newParent =>
    let ar1 := setNode ar newParent
      (fun n => { n with children := (n.children.erase head) ++ [tail] })
    let ar2 := setNode ar1 tail (fun n => { n with parent := some newParent })
    setNode ar2 tail (fun n => { n with cs := newSymbols })

/-- `VariantNode.collapse`: head and tail node sets are computed up front on
the unmutated tree; each tail's path to a head is then compacted on the
current tree, in tail order. -/
def collapse (ar : Arena) (headSymbols tailSymbols : List Sym) : Arena :=
  (findNodes ar ar.nodes.length 0 tailSymbols).foldl (fun a tid =>
    let path := getPath a a.nodes.length tid (findNodes ar ar.nodes.length 0 headSymbols)
    if path.length > 0 then compactPath a path else a) ar

/-- The parent back-reference of node `i`. -/
def parentOf (ar : Arena) (i : Nat) : Option Nat :=
  match ar.nodes[i]? with
  | none => none
  | some n => n.parent

/-- The nodes found by a `collapse(g, g)` search whose parent is `p`, in
search order: on a tree these are exactly `p`'s children whose
`current_symbols` equal `g`, in child order. -/
def matchedChildren (ar : Arena) (g : List Sym) (p : Nat) : List Nat :=
  (findNodes ar ar.nodes.length 0 g).filter (fun t => parentOf ar t == some p)

/-- Invariant of the degenerate `collapse(g, g)` fold after the tail nodes in
`done` have been processed and those in `rem` are still pending: every node
record agrees with the original except that, among each parent's children,
the already-processed matched ones have been rotated to the back. -/
def InvAt (ar : Arena) (g : List Sym) (rem done : List Nat) (a : Arena) : Prop :=
  a.nodes.length = ar.nodes.length ∧
  ∀ (i : Nat) (n : ANode), ar.nodes[i]? = some n →
    ∃ pre, n.children = pre ++ matchedChildren ar g i ∧
      (∀ x ∈ matchedChildren ar g i, x ∉ pre) ∧
      a.nodes[i]? = some ⟨n.cs, n.variant, n.conds,
        pre ++ rem.filter (fun t => parentOf ar t == some i) ++
          done.filter (fun t => parentOf ar t == some i), n.parent⟩

/-- Serialise a built `VNode` tree into an arena, depth-first, so that the
arena is the object graph the Python constructor creates (ids in preorder,
`parent` back-references set). -/
def toAF : Nat → VNode → Option Nat → List ANode → List ANode
  | 0, _, _, acc => acc
  | fuel + 1, t, parent, acc =>
    let id := acc.length
    let acc1 := acc ++ [⟨t.cs, t.variant, t.conds, [], parent⟩]
    let res := t.children.foldl
      (fun (p : List ANode × List Nat) c =>
        (toAF fuel c (some id) p.1, p.2 ++ [p.1.length]))
      (acc1, [])
    res.1.set id ⟨t.cs, t.variant, t.conds, res.2, parent⟩

def toArena (fuel : Nat) (t : VNode) : Arena :=
  ⟨toAF fuel t none []⟩

/-- Read the tree reachable from node `id` back out of an arena (used to
compare structures: labels, variants, conditionals and parent/child shape). -/
def extractT (ar : Arena) : Nat → Nat → VNode
  | 0, _ => ⟨[], ⟨[]⟩, [], []⟩
  | fuel + 1, id =>
    match ar.nodes[id]? with
    | none => ⟨[], ⟨[]⟩, [], []⟩
    | some n => ⟨n.cs, n.variant, n.conds, n.children.map (extractT ar fuel)⟩

/-! Concrete data of the end-to-end scenario (the module's `main` and the test
suite): symbols A, B, C; possible variants; Part 1 = `B & (A | C)` whose DNF
is `(A & B) | (B & C)` (asserted by the repository's own `test_dnf`);
Part 2 = `C & (A | B)` with DNF `(A & C) | (B & C)`. -/

def vTTF : Variant := ⟨[⟨"A", some true⟩, ⟨"B", some true⟩, ⟨"C", some false⟩]⟩

def vTFT : Variant := ⟨[⟨"A", some true⟩, ⟨"B", some false⟩, ⟨"C", some true⟩]⟩

def vFTT : Variant := ⟨[⟨"A", some false⟩, ⟨"B", some true⟩, ⟨"C", some true⟩]⟩

def possibleVariants3 : List Variant := [vTTF, vTFT, vFTT]

def cond1 : Condition := ⟨[[("A", true), ("B", true)], [("B", true), ("C", true)]]⟩

def cond2 : Condition := ⟨[[("A", true), ("C", true)], [("B", true), ("C", true)]]⟩

def part1 : Part := ⟨"Part 1", cond1⟩

def part2 : Part := ⟨"Part 2", cond2⟩

def conds12 : List Part := [part1, part2]

/-- The tree of the end-to-end scenario, `symbol_order = [[A], [B], [C]]`. -/
def treeC1 : VNode :=
  buildTree [["A"], ["B"], ["C"]] possibleVariants3 conds12

/-- The same scenario built directly with the pre-merged symbol order
`[[A], [B, C]]`. -/
def treeC4 : VNode :=
  buildTree [["A"], ["B", "C"]] possibleVariants3 conds12

/-- Possible variants for the stranded-leaf scenario: one full assignment and
one partial assignment (C left unset). -/
def vTTT : Variant := ⟨[⟨"A", some true⟩, ⟨"B", some true⟩, ⟨"C", some true⟩]⟩

def vTFn : Variant := ⟨[⟨"A", some true⟩, ⟨"B", some false⟩, ⟨"C", none⟩]⟩

def treeC3 : VNode :=
  buildTree [["A"], ["B"], ["C"]] [vTTT, vTFn] []

/-- The stranded-leaf scenario built directly with the pre-merged symbol
order `[[A], [B, C]]`. -/
def treeC4bad : VNode :=
  buildTree [["A"], ["B", "C"]] [vTTT, vTFn] []

def treeC5 : VNode :=
  buildTree [["A", "B"]] [⟨[⟨"A", some true⟩, ⟨"B", some true⟩]⟩] []

/-- A two-node chain: the root and a single `[A]` child (its parent's last
child), used as witness data for the degenerate-collapse theorems. -/
def treeW : VNode :=
  buildTree [["A"]] [⟨[⟨"A", some true⟩]⟩] []

/-- Possible variants for the overlapping-group scenario. -/
def pvsC9 : List Variant :=
  [⟨[⟨"A", some true⟩, ⟨"B", some false⟩]⟩, ⟨[⟨"A", some false⟩, ⟨"B", some true⟩]⟩]

/-- Tree built by the constructor with `symbol_order = [[A], [A, B]]` (the
groups overlap in A) from a root variant over A, B. -/
def treeC9 : VNode :=
  build ["A", "A", "B"] pvsC9 [] [["A"], ["A", "B"]] [] ⟨[⟨"A", none⟩, ⟨"B", none⟩]⟩

/-- The symbol sequence of a variant's sorted attributes; two variants are
"over the same symbols" when these agree. -/
def sortedSyms (v : Variant) : List Sym :=
  (sortAttrs v.attrs).map Attr.symbol

/-- No symbol occurs in two distinct groups of the symbol order. -/
def pairwiseDisjoint : List (List Sym) → Bool
  | [] => true
  | g :: rest =>
    rest.all (fun h => g.all (fun s => !decide (s ∈ h))) && pairwiseDisjoint rest

/-- Every attribute of the variant at one of the given symbols is unset. -/
def unsetOn (v : Variant) (syms : List Sym) : Bool :=
  v.attrs.all (fun a => !decide (a.symbol ∈ syms) || a.value.isNone)

/-! Lemmas about the binary rendering of combination indices. -/

theorem boolFromInteger_succ (i k : Nat) :
    boolFromInteger i (k + 1) = i.testBit k :: boolFromInteger i k := by
  unfold boolFromInteger
  rw [List.range_succ_eq_map, List.map_cons, List.map_map]
  refine congrArg₂ _ (by simp) ?_
  refine congrArg (List.map · (List.range k)) (funext fun j => ?_)
  simp only [Function.comp_apply]
  refine congrArg _ ?_
  omega

theorem bitsToNat_aux (k : Nat) : ∀ (i c : Nat),
    (boolFromInteger i k).foldl (fun a b => 2 * a + (if b then 1 else 0)) c =
      c * 2 ^ k + i % 2 ^ k := by
  induction k with
  | zero => intro i c; simp [boolFromInteger, Nat.mod_one]
  | succ k ih =>
    intro i c
    rw [boolFromInteger_succ, List.foldl_cons, ih]
    rw [Nat.pow_succ, Nat.mod_mul, Nat.testBit_to_div_mod]
    by_cases hb : i / 2 ^ k % 2 = 1
    · rw [hb]
      norm_num
      ring
    · have h0 : i / 2 ^ k % 2 = 0 := by omega
      rw [h0]
      norm_num
      ring

theorem bitsToNat_boolFromInteger (i k : Nat) (h : i < 2 ^ k) :
    bitsToNat (boolFromInteger i k) = i := by
  unfold bitsToNat
  rw [bitsToNat_aux]
  simp [Nat.mod_eq_of_lt h]

theorem VNode_variant_mk (cs : List Sym) (v : Variant) (cd : List Part)
    (ch : List VNode) : (VNode.mk cs v cd ch).variant = v := rfl

theorem VNode_children_mk (cs : List Sym) (v : Variant) (cd : List Part)
    (ch : List VNode) : (VNode.mk cs v cd ch).children = ch := rfl

theorem build_variant (flat : List Sym) (pvs : List Variant) (conds : List Part)
    (remaining : List (List Sym)) (cs : List Sym) (v : Variant) :
    (build flat pvs conds remaining cs v).variant = v := by
  unfold build
  split
  · rfl
  · cases remaining with
    | nil => rfl
    | cons g rest =>
      dsimp only
      split <;> rfl

theorem filter_map_eq_filterMap {α β : Type} (f : α → β) (q : β → Bool) (l : List α) :
    (l.map f).filter q =
      l.filterMap (fun a => if q (f a) then some (f a) else none) := by
  induction l with
  | nil => rfl
  | cons x t ih =>
    rw [List.map_cons, List.filter_cons, List.filterMap_cons]
    by_cases h : q (f x)
    · simp only [h, if_true, ih]
    · simp only [h, if_false, Bool.false_eq_true, ih]

/-- Claim C6: during child creation for the `k` symbols of the next group, the
`2 ^ k` value combinations are the integers `0 .. 2 ^ k - 1` in ascending
order, each rendered as its `k`-bit most-significant-bit-first boolean vector
(the rendering has length `k` and decodes back to the integer), and the
surviving children are attached in exactly that ascending order. -/
theorem c6_child_order (flat : List Sym) (pvs : List Variant) (conds : List Part)
    (g : List Sym) (rest : List (List Sym)) (cs : List Sym) (v : Variant) (i : Nat)
    (hfin : isFinal v flat = false) (hg : g ≠ []) (hi : i < 2 ^ g.length) :
    ((boolFromInteger i g.length).length = g.length ∧
      bitsToNat (boolFromInteger i g.length) = i) ∧
    (build flat pvs conds (g :: rest) cs v).children.map VNode.variant =
      (List.range (2 ^ g.length)).filterMap (fun j =>
        if isPossible pvs (deriveOne v g (boolFromInteger j g.length)) then
          some (deriveOne v g (boolFromInteger j g.length))
        else none) := by
  constructor
  · exact ⟨by simp [boolFromInteger], bitsToNat_boolFromInteger i g.length hi⟩
  · unfold build
    rw [if_neg (by simp [hfin])]
    dsimp only
    rw [if_neg (by simp [List.isEmpty_iff, hg])]
    show (List.map _ _).map VNode.variant = _
    rw [List.map_map]
    have hcomp : VNode.variant ∘ (fun w => build flat pvs conds rest g w) = id :=
      funext fun w => build_variant flat pvs conds rest g w
    rw [hcomp, List.map_id, filter_map_eq_filterMap]

/-- Witness for C6 at a concrete interior node and index. -/
theorem c6_child_order_witness :
    ((boolFromInteger 1 1).length = 1 ∧ bitsToNat (boolFromInteger 1 1) = 1) ∧
    (build ["A"] [] [] [["A"]] [] ⟨[⟨"A", none⟩]⟩).children.map VNode.variant =
      (List.range (2 ^ (1 : Nat))).filterMap (fun j =>
        if isPossible [] (deriveOne ⟨[⟨"A", none⟩]⟩ ["A"] (boolFromInteger j 1)) then
          some (deriveOne ⟨[⟨"A", none⟩]⟩ ["A"] (boolFromInteger j 1))
        else none) :=
  c6_child_order ["A"] [] [] ["A"] [] [] ⟨[⟨"A", none⟩]⟩ 1
    (by decide) (by decide) (by decide)

/-! Claim C10 and its helpers. -/

theorem filterMap_relevant_nil (l : List Attr) (h : ∀ a ∈ l, a.value.isNone = true) :
    l.filterMap (fun a => if a.value.isSome then some a.symbol else none) = [] := by
  induction l with
  | nil => rfl
  | cons a t ih =>
    rw [List.filterMap_cons]
    have ha : a.value.isNone = true := h a (List.mem_cons_self a t)
    have hs : a.value.isSome = false := by
      cases hv : a.value with
      | none => rfl
      | some b => rw [hv] at ha; simp at ha
    rw [hs]
    exact ih (fun b hb => h b (List.mem_cons_of_mem a hb))

theorem dAll_nil_right (xs : List Attr) : dAll xs [] = true := by
  unfold dAll
  rw [List.zip_nil_right]
  rfl

/-- Claim C10: for every condition (whose DNF term list is nonempty, as the
constructor guarantees—`terms` is `dnf.args` for an `Or` and `[dnf]`
otherwise, so even the constant `False` contributes one term) and every empty
variant, `check` returns `True`. -/
theorem c10_empty_variant (c : Condition) (v : Variant)
    (hne : c.terms ≠ []) (h : isEmpty v = true) : check c v = true := by
  unfold check solves
  have hrel : relevantSymbols v = [] := by
    unfold isEmpty at h
    rw [List.all_eq_true] at h
    exact filterMap_relevant_nil v.attrs h
  rw [hrel]
  unfold toPossibleVariants
  simp only [List.map_nil]
  rw [List.any_eq_true]
  obtain ⟨t, ht⟩ := List.exists_mem_of_ne_nil c.terms hne
  refine ⟨⟨[]⟩, List.mem_map_of_mem _ ht, ?_⟩
  unfold isDerivedFromOrEqual
  have : sortAttrs ([] : List Attr) = [] := rfl
  rw [this]
  exact dAll_nil_right _

/-- Witness for C10: the condition wrapping the constant `False` (a single
term with no literals) checked on the all-unset variant over A, B, C. -/
theorem c10_empty_variant_witness :
    check ⟨[[]]⟩ ⟨[⟨"A", none⟩, ⟨"B", none⟩, ⟨"C", none⟩]⟩ = true :=
  c10_empty_variant ⟨[[]]⟩ ⟨[⟨"A", none⟩, ⟨"B", none⟩, ⟨"C", none⟩]⟩
    (by decide) (by decide)

/-- Claim C1 counterexample: on the end-to-end scenario the leaves do appear
one per possible variant with the claimed conditional sets, but not in the
claimed tree order `variant_1, variant_2, variant_3`: the actual tree order
is `variant_3, variant_2, variant_1` (children are generated in ascending
combination order, so the `False` branch precedes the `True` branch). -/
theorem c1_counterexample :
    (leafsF 10 treeC1).map Prod.fst ≠ [vTTF, vTFT, vFTT] ∧
    (leafsF 10 treeC1).map Prod.fst = [vFTT, vTFT, vTTF] := by
  constructor
  · decide
  · decide

/-- Claim C1 as amended: the tree of the end-to-end scenario has exactly the
three leaves `{A:F,B:T,C:T} → [Part1, Part2]`, `{A:T,B:F,C:T} → [Part2]`,
`{A:T,B:T,C:F} → [Part1]`, in that tree order—one per possible variant. -/
theorem c1_leaves :
    leafsF 10 treeC1 = [(vFTT, [part1, part2]), (vTFT, [part2]), (vTTF, [part1])] := by
  decide

/-- Claim C2: evaluating the code at the failing input.  For the condition
`B & (A | C)` (DNF `(A & B) | (B & C)`), `check` on `{A:None,B:True,C:None}`
returns `False`—not `True` as the claim and `check`'s docstring demand—because
`solves` zips the three sorted attributes of the variant against the single
attribute of each projected possible variant, pairing A with B.  On
`{A:None,B:False,C:None}` it returns `False` as the claim states, and on the
docstring's own example `{A:True,B:None,C:False}` it returns `True`. -/
theorem c2_check_eval :
    check cond1 ⟨[⟨"A", none⟩, ⟨"B", some true⟩, ⟨"C", none⟩]⟩ = false ∧
    check cond1 ⟨[⟨"A", none⟩, ⟨"B", some false⟩, ⟨"C", none⟩]⟩ = false ∧
    check cond1 ⟨[⟨"A", some true⟩, ⟨"B", none⟩, ⟨"C", some false⟩]⟩ = true := by
  refine ⟨by decide, by decide, by decide⟩

/-- Claim C3: evaluating the code at the failing input.  The tree built from
possible variants `{A:T,B:T,C:T}` and the partial `{A:T,B:F,C:None}` has two
leaves (the childless interior node `{A:T,B:F}` and the final node
`{A:T,B:T,C:T}`); `collapse([A],[C])` detaches the head `[A]` node and
re-attaches only the `[C]` tail, silently dropping the `{A:T,B:F}` leaf, so
the leaf count falls from 2 to 1 although `collapse`'s docstring promises
"The number of leafs is not changed". -/
theorem c3_leaf_loss :
    (leafsF 10 (extractT (toArena 10 treeC3) 10 0)).length = 2 ∧
    (leafsF 10 (extractT (collapse (toArena 10 treeC3) ["A"] ["C"]) 10 0)).length = 1 := by
  refine ⟨by decide, by decide⟩

/-- Claim C4 counterexample: the construction/collapse equivalence does not
hold for every possible-variant list.  With possible variants `{A:T,B:T,C:T}`
and the partial `{A:T,B:F,C:None}` (no conditionals), building with
`[[A],[B],[C]]` and collapsing `([B],[C])` keeps the childless `{A:T,B:F}`
node as a stranded `[B]`-labelled leaf (2 leaves), while building directly
with `[[A],[B,C]]` never creates it (1 leaf)—the two trees are not
structurally identical. -/
theorem c4_counterexample :
    shapeF 10 (extractT (collapse (toArena 10 treeC3) ["B"] ["C"]) 10 0) ≠
      shapeF 10 (extractT (toArena 10 treeC4bad) 10 0) ∧
    (leafsF 10 (extractT (collapse (toArena 10 treeC3) ["B"] ["C"]) 10 0)).length = 2 ∧
    (leafsF 10 (extractT (toArena 10 treeC4bad) 10 0)).length = 1 := by
  refine ⟨by decide, by decide, by decide⟩

/-- Claim C4 as amended: on the end-to-end scenario's data (the three
full-assignment possible variants and the conditionals Part 1, Part 2),
building with `symbol_order = [[A],[B],[C]]` and then collapsing `([B],[C])`
yields a tree structurally identical—same preorder sequence of
`current_symbols` labels, variants, conditionals and child counts—to the tree
built directly with the pre-merged order `[[A],[B,C]]`. -/
theorem c4_collapse_equiv :
    shapeF 10 (extractT (collapse (toArena 10 treeC1) ["B"] ["C"]) 10 0) =
      shapeF 10 (extractT (toArena 10 treeC4) 10 0) := by
  decide

/-- Claim C5 counterexample: on the tree built with `symbol_order = [[A,B]]`
(and possible variant `{A:T,B:T}`), the degenerate `collapse([A,B],[A,B])`
is not a no-op: the matched node's `current_symbols` get reversed from
`[A, B]` to `[B, A]`. -/
theorem c5_counterexample :
    csOf (toArena 10 treeC5) 1 = ["A", "B"] ∧
    csOf (collapse (toArena 10 treeC5) ["A", "B"] ["A", "B"]) 1 = ["B", "A"] := by
  refine ⟨by decide, by decide⟩

/-! Claim C7: refinement of the zipped-comparison and its transitivity. -/

theorem dAll_trans (a : List Attr) : ∀ (b c : List Attr),
    a.length = b.length → b.length = c.length →
    dAll a b = true → dAll b c = true → dAll a c = true := by
  induction a with
  | nil => intro b c _ _ _ _; rfl
  | cons a0 as ih =>
    intro b c hab hbc h1 h2
    cases b with
    | nil => simp at hab
    | cons b0 bs =>
      cases c with
      | nil => exact dAll_nil_right _
      | cons c0 cs =>
        unfold dAll at h1 h2 ⊢
        rw [List.zip_cons_cons, List.all_cons, Bool.and_eq_true] at h1 h2 ⊢
        refine ⟨?_, ih bs cs (by simpa using hab) (by simpa using hbc) h1.2 h2.2⟩
        cases hc : c0.value with
        | none => rfl
        | some x =>
          have h2h := h2.1
          rw [hc] at h2h
          have hb : b0.value = some x := of_decide_eq_true h2h
          have h1h := h1.1
          rw [hb] at h1h
          exact h1h

/-- Claim C7 as amended: admissibility monotonicity holds for variants over a
common symbol set—if `v`, `v'` and every possible variant have the same
sorted symbol sequence, `v` is possible and `v` is derived-from-or-equal to
`v'`, then `v'` is possible.  (Unrestricted, the claim fails: see the
counterexample.) -/
theorem c7_monotone (P : List Variant) (v v' : Variant)
    (hv : sortedSyms v = sortedSyms v')
    (hP : ∀ p ∈ P, sortedSyms p = sortedSyms v)
    (h1 : isPossible P v = true) (h2 : isDerivedFromOrEqual v v' = true) :
    isPossible P v' = true := by
  unfold isPossible at h1 ⊢
  rw [List.any_eq_true] at h1 ⊢
  obtain ⟨p, hp, hd⟩ := h1
  refine ⟨p, hp, ?_⟩
  unfold isDerivedFromOrEqual at hd h2 ⊢
  have lp : (sortAttrs p.attrs).length = (sortAttrs v.attrs).length := by
    have h := congrArg List.length (hP p hp)
    simpa [sortedSyms] using h
  have lv : (sortAttrs v.attrs).length = (sortAttrs v'.attrs).length := by
    have h := congrArg List.length hv
    simpa [sortedSyms] using h
  exact dAll_trans _ _ _ lp lv hd h2

/-- Witness for C7 (amended): concrete variants over the symbols A, B. -/
theorem c7_monotone_witness :
    isPossible [⟨[⟨"A", some true⟩, ⟨"B", some true⟩]⟩] ⟨[⟨"A", none⟩, ⟨"B", none⟩]⟩ = true :=
  c7_monotone [⟨[⟨"A", some true⟩, ⟨"B", some true⟩]⟩]
    ⟨[⟨"A", some true⟩, ⟨"B", none⟩]⟩ ⟨[⟨"A", none⟩, ⟨"B", none⟩]⟩
    (by decide) (by decide) (by decide) (by decide)

/-- Claim C7 counterexample: with attribute lists of different lengths the
truncating zip makes the claim fail: `v = {A:T}` is possible w.r.t.
`P = [{A:T,B:F}]` and derived-from-or-equal to `v' = {A:T,B:T}` (the zip
drops B), yet `v'` is not possible. -/
theorem c7_counterexample :
    isPossible [⟨[⟨"A", some true⟩, ⟨"B", some false⟩]⟩] ⟨[⟨"A", some true⟩]⟩ = true ∧
    isDerivedFromOrEqual ⟨[⟨"A", some true⟩]⟩ ⟨[⟨"A", some true⟩, ⟨"B", some true⟩]⟩ = true ∧
    isPossible [⟨[⟨"A", some true⟩, ⟨"B", some false⟩]⟩]
      ⟨[⟨"A", some true⟩, ⟨"B", some true⟩]⟩ = false := by
  refine ⟨by decide, by decide, by decide⟩

/-! Claims C8 and C5: lemmas about `findNodes`, `setNode` and `collapse`. -/

theorem findNodes_cs (ar : Arena) : ∀ (fuel id : Nat) (syms : List Sym) (j : Nat),
    j ∈ findNodes ar fuel id syms → ∃ n, ar.nodes[j]? = some n ∧ n.cs = syms := by
  intro fuel
  induction fuel with
  | zero => intro id syms j hj; simp [findNodes] at hj
  | succ fuel ih =>
    intro id syms j hj
    unfold findNodes at hj
    cases hn : ar.nodes[id]? with
    | none => rw [hn] at hj; simp at hj
    | some n =>
      simp only [hn] at hj
      by_cases hcs : n.cs = syms
      · rw [if_pos hcs] at hj
        have hji : j = id := by simpa using hj
        exact ⟨n, hji ▸ hn, hcs⟩
      · rw [if_neg hcs] at hj
        rw [List.mem_flatten] at hj
        obtain ⟨l, hl, hjl⟩ := hj
        rw [List.mem_map] at hl
        obtain ⟨c, _, rfl⟩ := hl
        exact ih c syms j hjl

theorem findNodes_empty (ar : Arena) (syms : List Sym)
    (h : ∀ n ∈ ar.nodes, n.cs ≠ syms) (fuel id : Nat) :
    findNodes ar fuel id syms = [] := by
  rw [List.eq_nil_iff_forall_not_mem]
  intro j hj
  obtain ⟨n, hn, hcs⟩ := findNodes_cs ar fuel id syms j hj
  exact h n (List.getElem?_mem hn) hcs

/-- Claim C8: a `collapse` whose head and tail symbols match no node's
`current_symbols` finds empty head and tail node lists and leaves the tree
unchanged—no error. -/
theorem c8_noop (ar : Arena) (h t : List Sym)
    (hh : ∀ n ∈ ar.nodes, n.cs ≠ h) (ht : ∀ n ∈ ar.nodes, n.cs ≠ t) :
    findNodes ar ar.nodes.length 0 h = [] ∧
    findNodes ar ar.nodes.length 0 t = [] ∧
    collapse ar h t = ar := by
  refine ⟨findNodes_empty ar h hh _ _, findNodes_empty ar t ht _ _, ?_⟩
  unfold collapse
  rw [findNodes_empty ar t ht _ _]
  rfl

/-- Witness for C8 on the two-node arena of `treeC5`, with symbol groups
absent from the tree. -/
theorem c8_noop_witness :
    findNodes (toArena 10 treeC5) (toArena 10 treeC5).nodes.length 0 ["Z"] = [] ∧
    findNodes (toArena 10 treeC5) (toArena 10 treeC5).nodes.length 0 ["Q"] = [] ∧
    collapse (toArena 10 treeC5) ["Z"] ["Q"] = toArena 10 treeC5 :=
  c8_noop (toArena 10 treeC5) ["Z"] ["Q"] (by decide) (by decide)

theorem set_getElem_self {α : Type} (l : List α) : ∀ (i : Nat) (a : α),
    l[i]? = some a → l.set i a = l := by
  induction l with
  | nil => intro i a h; simp at h
  | cons b tl ih =>
    intro i a h
    cases i with
    | zero =>
      simp only [List.getElem?_cons_zero, Option.some.injEq] at h
      rw [List.set_cons_zero, h]
    | succ i =>
      simp only [List.getElem?_cons_succ] at h
      rw [List.set_cons_succ, ih i a h]

theorem setNode_id (ar : Arena) (i : Nat) (f : ANode → ANode) (n : ANode)
    (h : ar.nodes[i]? = some n) (hf : f n = n) : setNode ar i f = ar := by
  unfold setNode
  have hg : ar.nodes.getD i ⟨[], ⟨[]⟩, [], [], none⟩ = n := by
    rw [List.getD_eq_getElem?_getD, h]
    rfl
  rw [hg, hf]
  cases ar with
  | mk nodes => exact congrArg Arena.mk (set_getElem_self nodes i n h)

theorem foldl_fixed {α β : Type} (f : α → β → α) (a : α) : ∀ (l : List β),
    (∀ x ∈ l, f a x = a) → l.foldl f a = a := by
  intro l
  induction l with
  | nil => intro _; rfl
  | cons x t ih =>
    intro h
    rw [List.foldl_cons, h x (List.mem_cons_self x t)]
    exact ih (fun y hy => h y (List.mem_cons_of_mem x hy))

theorem lt_of_getElem?_some {α : Type} {l : List α} {i : Nat} {x : α}
    (h : l[i]? = some x) : i < l.length := by
  by_contra hle
  push_neg at hle
  rw [List.getElem?_eq_none hle] at h
  exact Option.noConfusion h

theorem setNode_get (a : Arena) (i : Nat) (f : ANode → ANode) (r : ANode)
    (h : a.nodes[i]? = some r) : (setNode a i f).nodes = a.nodes.set i (f r) := by
  unfold setNode
  have hg : a.nodes.getD i ⟨[], ⟨[]⟩, [], [], none⟩ = r := by
    rw [List.getD_eq_getElem?_getD, h]
    rfl
  rw [hg]

theorem InvAt_length {ar : Arena} {g : List Sym} {rem done : List Nat} {a : Arena}
    (h : InvAt ar g rem done a) : a.nodes.length = ar.nodes.length := h.1

/-- One step of the degenerate `collapse(g, g)` fold preserves the rotation
invariant: processing tail `m` either does nothing (root or missing parent)
or moves `m` from the pending block of its parent's children to the back of
the processed block. -/
theorem collapse_gg_step (ar : Arena) (g : List Sym) (hrev : g.reverse = g)
    (rem' done : List Nat) (m : Nat) (a : Arena)
    (hF : findNodes ar ar.nodes.length 0 g = done ++ m :: rem')
    (hinv : InvAt ar g (m :: rem') done a) :
    InvAt ar g rem' (done ++ [m])
      (let path := getPath a a.nodes.length m (findNodes ar ar.nodes.length 0 g)
       if path.length > 0 then compactPath a path else a) := by
  obtain ⟨hlen, hnodes⟩ := hinv
  have hmF : m ∈ findNodes ar ar.nodes.length 0 g := by
    rw [hF]
    exact List.mem_append_right _ (List.mem_cons_self _ _)
  obtain ⟨n_m, hnm, hcsm⟩ := findNodes_cs ar _ 0 g m hmF
  obtain ⟨pre_m, hchm, hprem, ham⟩ := hnodes m n_m hnm
  have hpath : getPath a a.nodes.length m (findNodes ar ar.nodes.length 0 g) = [m] := by
    unfold getPath
    rw [if_pos hmF]
  show InvAt ar g rem' (done ++ [m])
    (if (getPath a a.nodes.length m (findNodes ar ar.nodes.length 0 g)).length > 0
     then compactPath a (getPath a a.nodes.length m (findNodes ar ar.nodes.length 0 g))
     else a)
  rw [hpath, if_pos (by simp)]
  unfold compactPath
  have hcsa : csOf a m = g := by
    unfold csOf
    simp only [ham]
    exact hcsm
  simp only [List.map_cons, List.map_nil, List.flatten_cons, List.flatten_nil,
    List.append_nil, List.getLastD_cons, List.getLastD_nil, List.headD_cons,
    hcsa, hrev, ham]
  cases hpar : n_m.parent with
  | none =>
    dsimp only
    have hparm : parentOf ar m = none := by
      unfold parentOf
      simp only [hnm]
      exact hpar
    have hfalse : ∀ (i : Nat), (parentOf ar m == some i) = false := by
      intro i
      rw [hparm]
      rfl
    refine ⟨hlen, ?_⟩
    intro i n hin
    obtain ⟨pre, h1, h2, h3⟩ := hnodes i n hin
    refine ⟨pre, h1, h2, ?_⟩
    rw [h3]
    simp only [List.filter_cons, List.filter_append, List.filter_nil, hfalse,
      Bool.false_eq_true, if_false, List.append_nil]
  | some p =>
    dsimp only
    have hparm : parentOf ar m = some p := by
      unfold parentOf
      simp only [hnm]
      exact hpar
    have hbeqm : ∀ (i : Nat), (parentOf ar m == some i) = decide (p = i) := by
      intro i
      rw [hparm]
      by_cases h : p = i <;> simp [h]
    cases hnp : ar.nodes[p]? with
    | none =>
      have hlenp : ar.nodes.length ≤ p := by
        by_contra hlt
        push_neg at hlt
        rw [List.getElem?_eq_getElem hlt] at hnp
        exact Option.noConfusion hnp
      have ha1 : setNode a p
          (fun n => { n with children := (n.children.erase m) ++ [m] }) = a := by
        unfold setNode
        rw [List.set_eq_of_length_le (by rw [hlen]; exact hlenp)]
      have hf2 : setNode a m (fun n => { n with parent := some p }) = a := by
        refine setNode_id a m _ _ ham ?_
        rw [← hpar]
      have hf3 : setNode a m (fun n => { n with cs := g }) = a := by
        refine setNode_id a m _ _ ham ?_
        rw [← hcsm]
      rw [ha1, hf2, hf3]
      have hpne : ∀ (i : Nat) (n : ANode), ar.nodes[i]? = some n → decide (p = i) = false := by
        intro i n hin
        have hpi : p ≠ i := by
          intro he
          rw [← he, hnp] at hin
          exact Option.noConfusion hin
        simp [hpi]
      refine ⟨hlen, ?_⟩
      intro i n hin
      obtain ⟨pre, h1, h2, h3⟩ := hnodes i n hin
      refine ⟨pre, h1, h2, ?_⟩
      rw [h3]
      simp only [List.filter_cons, List.filter_append, List.filter_nil, hbeqm,
        hpne i n hin, Bool.false_eq_true, if_false, List.append_nil]
    | some pn =>
      obtain ⟨pre_p, hchp, hprep, hap⟩ := hnodes p pn hnp
      have hmM : m ∈ matchedChildren ar g p := by
        unfold matchedChildren
        rw [List.mem_filter]
        refine ⟨hmF, ?_⟩
        rw [hparm]
        simp
      have hmnotpre : m ∉ pre_p := hprep m hmM
      have hfmp : (parentOf ar m == some p) = true := by
        rw [hparm]
        simp
      have hplt : p < a.nodes.length := by
        rw [hlen]
        exact lt_of_getElem?_some hnp
      -- the children list of p in `a`, with m at the head of the pending block
      have hsplit : (m :: rem').filter (fun t => parentOf ar t == some p) =
          m :: rem'.filter (fun t => parentOf ar t == some p) := by
        rw [List.filter_cons, if_pos hfmp]
      -- the record of p after the erase/append step
      have ha1 : (setNode a p
          (fun n => { n with children := (n.children.erase m) ++ [m] })).nodes =
          a.nodes.set p ⟨pn.cs, pn.variant, pn.conds,
            pre_p ++ rem'.filter (fun t => parentOf ar t == some p) ++
              ((done ++ [m]).filter (fun t => parentOf ar t == some p)),
            pn.parent⟩ := by
        rw [setNode_get a p _ _ hap]
        refine congrArg (a.nodes.set p) ?_
        refine congrArg (fun c => ANode.mk pn.cs pn.variant pn.conds c pn.parent) ?_
        rw [hsplit]
        rw [List.append_assoc, List.cons_append, List.erase_append_right _ hmnotpre,
          List.erase_cons_head]
        rw [List.filter_append, List.filter_cons, if_pos hfmp, List.filter_nil]
        simp [List.append_assoc]
      -- node m's record is untouched in value by the last two updates
      have hmlt : m < a.nodes.length := by
        rw [hlen]
        exact lt_of_getElem?_some hnm
      by_cases hmp : m = p
      · -- m is its own parent: the erase/append already updated its record;
        -- the parent and cs writes keep the current values
        subst hmp
        have hinj : pn = n_m := by
          rw [hnm] at hnp
          exact ((Option.some.injEq _ _).mp hnp).symm
        subst hinj
        have ham1 : (setNode a m
            (fun n => { n with children := (n.children.erase m) ++ [m] })).nodes[m]? =
            some ⟨pn.cs, pn.variant, pn.conds,
              pre_p ++ rem'.filter (fun t => parentOf ar t == some m) ++
                ((done ++ [m]).filter (fun t => parentOf ar t == some m)),
              pn.parent⟩ := by
          rw [ha1]
          exact List.getElem?_set_self hplt
        have hf2 : setNode (setNode a m
            (fun n => { n with children := (n.children.erase m) ++ [m] })) m
            (fun n => { n with parent := some m }) =
            setNode a m (fun n => { n with children := (n.children.erase m) ++ [m] }) := by
          refine setNode_id _ m _ _ ham1 ?_
          rw [← hpar]
        rw [hf2]
        have hf3 : setNode (setNode a m
            (fun n => { n with children := (n.children.erase m) ++ [m] })) m
            (fun n => { n with cs := g }) =
            setNode a m (fun n => { n with children := (n.children.erase m) ++ [m] }) := by
          refine setNode_id _ m _ _ ham1 ?_
          rw [← hcsm]
        rw [hf3]
        refine ⟨by rw [ha1, List.length_set]; exact hlen, ?_⟩
        intro i n hin
        obtain ⟨pre, h1, h2, h3⟩ := hnodes i n hin
        by_cases hip : i = m
        · subst hip
          have hnpn : n = pn := by
            rw [hin] at hnp
            exact (Option.some.injEq _ _).mp hnp
          subst hnpn
          refine ⟨pre_p, hchp, hprep, ?_⟩
          rw [ha1]
          exact List.getElem?_set_self hplt
        · refine ⟨pre, h1, h2, ?_⟩
          rw [ha1, List.getElem?_set_ne (Ne.symm hip), h3]
          have hfi : (parentOf ar m == some i) = false := by
            rw [hbeqm]
            exact decide_eq_false (Ne.symm hip)
          simp only [List.filter_cons, List.filter_append, List.filter_nil, hfi,
            Bool.false_eq_true, if_false, List.append_nil]
      · -- m and its parent are distinct nodes
        have ham1 : (setNode a p
            (fun n => { n with children := (n.children.erase m) ++ [m] })).nodes[m]? =
            some ⟨n_m.cs, n_m.variant, n_m.conds,
              pre_m ++ (m :: rem').filter (fun t => parentOf ar t == some m) ++
                done.filter (fun t => parentOf ar t == some m),
              n_m.parent⟩ := by
          rw [ha1, List.getElem?_set_ne (Ne.symm hmp)]
          exact ham
        have hf2 : setNode (setNode a p
            (fun n => { n with children := (n.children.erase m) ++ [m] })) m
            (fun n => { n with parent := some p }) =
            setNode a p (fun n => { n with children := (n.children.erase m) ++ [m] }) := by
          refine setNode_id _ m _ _ ham1 ?_
          rw [← hpar]
        rw [hf2]
        have hf3 : setNode (setNode a p
            (fun n => { n with children := (n.children.erase m) ++ [m] })) m
            (fun n => { n with cs := g }) =
            setNode a p (fun n => { n with children := (n.children.erase m) ++ [m] }) := by
          refine setNode_id _ m _ _ ham1 ?_
          rw [← hcsm]
        rw [hf3]
        refine ⟨by rw [ha1, List.length_set]; exact hlen, ?_⟩
        intro i n hin
        obtain ⟨pre, h1, h2, h3⟩ := hnodes i n hin
        by_cases hip : i = p
        · subst hip
          have hnpn : n = pn := by
            rw [hin] at hnp
            exact (Option.some.injEq _ _).mp hnp
          subst hnpn
          refine ⟨pre_p, hchp, hprep, ?_⟩
          rw [ha1]
          exact List.getElem?_set_self hplt
        · refine ⟨pre, h1, h2, ?_⟩
          rw [ha1, List.getElem?_set_ne (Ne.symm hip), h3]
          have hfi : (parentOf ar m == some i) = false := by
            rw [hbeqm]
            exact decide_eq_false (Ne.symm hip)
          simp only [List.filter_cons, List.filter_append, List.filter_nil, hfi,
            Bool.false_eq_true, if_false, List.append_nil]

theorem collapse_gg_fold (ar : Arena) (g : List Sym) (hrev : g.reverse = g) :
    ∀ (rem done : List Nat) (a : Arena),
      findNodes ar ar.nodes.length 0 g = done ++ rem →
      InvAt ar g rem done a →
      InvAt ar g [] (done ++ rem)
        (rem.foldl (fun a tid =>
          let path := getPath a a.nodes.length tid (findNodes ar ar.nodes.length 0 g)
          if path.length > 0 then compactPath a path else a) a) := by
  intro rem
  induction rem with
  | nil =>
    intro done a _ hinv
    rw [List.foldl_nil, List.append_nil]
    exact hinv
  | cons m rem' ih =>
    intro done a hF hinv
    rw [List.foldl_cons]
    have hstep := collapse_gg_step ar g hrev rem' done m a hF hinv
    have hres := ih (done ++ [m]) _ (by rw [hF]; simp) hstep
    rw [List.append_assoc] at hres
    simpa using hres

/-- Claim C5 as amended: `collapse(g, g)` can change the tree—it reverses a
matched node's `current_symbols` (see the counterexample)—but it is a no-op
whenever `g` equals its own reverse (e.g. any singleton group) and, for every
parent, the matched nodes among its children form a suffix of its children
list in search order.  This covers the code's actual no-op behaviour: on any
tree whose matched nodes' siblings are all matched (as in a freshly built
tree, where siblings share `current_symbols`) or where only trailing children
match, the sequential move-to-back steps restore the original order. -/
theorem c5_degenerate_noop (ar : Arena) (g : List Sym) (hrev : g.reverse = g)
    (hsuffix : ∀ p pn, ar.nodes[p]? = some pn →
      ∃ pre, pn.children = pre ++ matchedChildren ar g p ∧
        ∀ x ∈ matchedChildren ar g p, x ∉ pre) :
    collapse ar g g = ar := by
  have hinit : InvAt ar g (findNodes ar ar.nodes.length 0 g) [] ar := by
    refine ⟨rfl, ?_⟩
    intro i n hin
    obtain ⟨pre, hch, hdisj⟩ := hsuffix i n hin
    refine ⟨pre, hch, hdisj, ?_⟩
    rw [hin, List.filter_nil, List.append_nil]
    have hrec : (⟨n.cs, n.variant, n.conds,
        pre ++ (findNodes ar ar.nodes.length 0 g).filter
          (fun t => parentOf ar t == some i), n.parent⟩ : ANode) = n := by
      rw [show (findNodes ar ar.nodes.length 0 g).filter
          (fun t => parentOf ar t == some i) = matchedChildren ar g i from rfl,
        ← hch]
    rw [hrec]
  have hfinal := collapse_gg_fold ar g hrev
    (findNodes ar ar.nodes.length 0 g) [] ar rfl hinit
  rw [List.nil_append] at hfinal
  obtain ⟨hlenf, hf⟩ := hfinal
  have hnodeseq : (collapse ar g g).nodes = ar.nodes := by
    refine List.ext_getElem? ?_
    intro i
    cases hin : ar.nodes[i]? with
    | none =>
      have hle : ar.nodes.length ≤ i := by
        by_contra hlt
        push_neg at hlt
        rw [List.getElem?_eq_getElem hlt] at hin
        exact Option.noConfusion hin
      exact List.getElem?_eq_none (by unfold collapse; rw [InvAt_length ⟨hlenf, hf⟩]; exact hle)
    | some n =>
      obtain ⟨pre, hch, _, h3⟩ := hf i n hin
      have hrec : (⟨n.cs, n.variant, n.conds,
          pre ++ List.filter (fun t => parentOf ar t == some i) [] ++
            (findNodes ar ar.nodes.length 0 g).filter
              (fun t => parentOf ar t == some i), n.parent⟩ : ANode) = n := by
        rw [List.filter_nil, List.append_nil,
          show (findNodes ar ar.nodes.length 0 g).filter
            (fun t => parentOf ar t == some i) = matchedChildren ar g i from rfl,
          ← hch]
      show (collapse ar g g).nodes[i]? = some n
      unfold collapse
      rw [h3, hrec]
  calc collapse ar g g = Arena.mk (collapse ar g g).nodes := rfl
    _ = Arena.mk ar.nodes := by rw [hnodeseq]
    _ = ar := rfl

/-- Witness for C5 (amended): on the two-node chain `treeW`, the degenerate
collapse of the reversal-invariant singleton group `[A]` (whose one match is
the whole child list of the root) changes nothing. -/
theorem c5_degenerate_noop_witness :
    collapse (toArena 10 treeW) ["A"] ["A"] = toArena 10 treeW := by
  refine c5_degenerate_noop (toArena 10 treeW) ["A"] rfl ?_
  intro p pn hpn
  have hlen2 : (toArena 10 treeW).nodes.length = 2 := rfl
  have hplt : p < 2 := by
    by_contra hge
    push_neg at hge
    rw [List.getElem?_eq_none (by rw [hlen2]; exact hge)] at hpn
    exact Option.noConfusion hpn
  interval_cases p
  · have h0 : (toArena 10 treeW).nodes[0]? =
        some ⟨[], ⟨[⟨"A", none⟩]⟩, [], [1], none⟩ := by decide
    rw [h0] at hpn
    injection hpn with hpn
    subst hpn
    exact ⟨[], by decide, by decide⟩
  · have h1 : (toArena 10 treeW).nodes[1]? =
        some ⟨["A"], ⟨[⟨"A", some true⟩]⟩, [], [], some 0⟩ := by decide
    rw [h1] at hpn
    injection hpn with hpn
    subst hpn
    exact ⟨[], by decide, by decide⟩

/-- Claim C9 counterexample: in the tree the constructor builds with the
overlapping groups `[[A], [A, B]]` over possible variants `{A:T,B:F}` and
`{A:F,B:T}`, deriving the second group overwrites the already-set A, so a
node's variant is not derived-from-or-equal to its parent's. -/
theorem c9_counterexample : goodTreeF pvsC9 10 treeC9 = false := by
  decide

/-! Claim C9: the freshly-built-tree invariant, via a sort/map commutation. -/

theorem insertAttr_map (f : Attr → Attr) (hf : ∀ a, (f a).symbol = a.symbol)
    (a : Attr) : ∀ (l : List Attr),
    insertAttr (f a) (l.map f) = (insertAttr a l).map f := by
  intro l
  induction l with
  | nil => rfl
  | cons b t ih =>
    rw [List.map_cons]
    unfold insertAttr
    rw [hf a, hf b]
    by_cases h : symLt a.symbol b.symbol = true
    · rw [if_pos h, if_pos h, List.map_cons, List.map_cons]
    · rw [if_neg h, if_neg h, List.map_cons, ih]

theorem sortAttrs_map_comm (f : Attr → Attr) (hf : ∀ a, (f a).symbol = a.symbol) :
    ∀ (l : List Attr), sortAttrs (l.map f) = (sortAttrs l).map f := by
  suffices h : ∀ (l acc : List Attr),
      (l.map f).foldl (fun acc a => insertAttr a acc) (acc.map f) =
        (l.foldl (fun acc a => insertAttr a acc) acc).map f by
    intro l
    have h0 := h l []
    simpa [sortAttrs] using h0
  intro l
  induction l with
  | nil => intro acc; rfl
  | cons x t ih =>
    intro acc
    rw [List.map_cons, List.foldl_cons, List.foldl_cons,
      insertAttr_map f hf x acc, ih (insertAttr x acc)]

theorem mem_insertAttr (a x : Attr) : ∀ (l : List Attr),
    x ∈ insertAttr a l ↔ x = a ∨ x ∈ l := by
  intro l
  induction l with
  | nil => simp [insertAttr]
  | cons b t ih =>
    unfold insertAttr
    by_cases h : symLt a.symbol b.symbol = true
    · rw [if_pos h]
      simp
    · rw [if_neg h]
      simp only [List.mem_cons, ih]
      tauto

theorem mem_sortAttrs (x : Attr) (l : List Attr) : x ∈ sortAttrs l ↔ x ∈ l := by
  suffices h : ∀ (l acc : List Attr),
      x ∈ l.foldl (fun acc a => insertAttr a acc) acc ↔ x ∈ acc ∨ x ∈ l by
    have h0 := h l []
    simpa [sortAttrs] using h0
  intro l
  induction l with
  | nil => intro acc; simp
  | cons y t ih =>
    intro acc
    rw [List.foldl_cons, ih (insertAttr y acc), mem_insertAttr]
    simp only [List.mem_cons]
    tauto

theorem zip_map_left_all (f : Attr → Attr) (q : Attr × Attr → Bool) :
    ∀ (s : List Attr), (∀ a ∈ s, q (f a, a) = true) →
      ((s.map f).zip s).all q = true := by
  intro s
  induction s with
  | nil => intro _; rfl
  | cons a t ih =>
    intro h
    rw [List.map_cons, List.zip_cons_cons, List.all_cons,
      h a (List.mem_cons_self a t), Bool.true_and]
    exact ih (fun b hb => h b (List.mem_cons_of_mem a hb))

theorem deriveOne_isDerived (v : Variant) (g : List Sym) (vals : List Bool)
    (hunset : ∀ a ∈ v.attrs, a.symbol ∈ g → a.value = none) :
    isDerivedFromOrEqual (deriveOne v g vals) v = true := by
  unfold isDerivedFromOrEqual deriveOne
  have hf : ∀ a : Attr,
      ((fun a : Attr => if a.symbol ∈ g then
          (⟨a.symbol, some (vals.getD (g.indexOf a.symbol) false)⟩ : Attr)
        else a) a).symbol = a.symbol := by
    intro a
    by_cases h : a.symbol ∈ g
    · simp [h]
    · simp [h]
  show dAll (sortAttrs (v.attrs.map _)) (sortAttrs v.attrs) = true
  rw [sortAttrs_map_comm _ hf]
  unfold dAll
  apply zip_map_left_all
  intro a ha
  have hav : a ∈ v.attrs := (mem_sortAttrs a v.attrs).mp ha
  cases hv : a.value with
  | none => simp only [hv]
  | some b =>
    have hnotg : a.symbol ∉ g := by
      intro hg
      have h0 := hunset a hav hg
      rw [hv] at h0
      exact Option.noConfusion h0
    simp only [hnotg, if_neg, if_false, hv, decide_eq_true_eq]

theorem unsetOn_spec (v : Variant) (syms : List Sym) (h : unsetOn v syms = true) :
    ∀ a ∈ v.attrs, a.symbol ∈ syms → a.value = none := by
  unfold unsetOn at h
  rw [List.all_eq_true] at h
  intro a ha hs
  have h0 := h a ha
  rw [Bool.or_eq_true] at h0
  rcases h0 with h1 | h2
  · rw [Bool.not_eq_true', decide_eq_false_iff_not] at h1
    exact absurd hs h1
  · exact Option.isNone_iff_eq_none.mp h2

theorem unsetOn_deriveOne (v : Variant) (g : List Sym) (vals : List Bool)
    (syms : List Sym) (hg : ∀ s ∈ syms, s ∉ g) (h : unsetOn v syms = true) :
    unsetOn (deriveOne v g vals) syms = true := by
  unfold unsetOn at h ⊢
  unfold deriveOne
  rw [List.all_eq_true] at h ⊢
  intro a' ha'
  rw [show (⟨v.attrs.map _⟩ : Variant).attrs = v.attrs.map _ from rfl,
    List.mem_map] at ha'
  obtain ⟨a, ha, rfl⟩ := ha'
  by_cases hmem : a.symbol ∈ g
  · rw [if_pos hmem]
    by_cases hs : a.symbol ∈ syms
    · exact absurd hmem (hg _ hs)
    · simp [hs]
  · rw [if_neg hmem]
    exact h a ha

theorem pairwiseDisjoint_spec (g : List Sym) (rest : List (List Sym))
    (h : pairwiseDisjoint (g :: rest) = true) :
    (∀ s ∈ rest.flatten, s ∉ g) ∧ pairwiseDisjoint rest = true := by
  unfold pairwiseDisjoint at h
  rw [Bool.and_eq_true] at h
  refine ⟨?_, h.2⟩
  intro s hs hsg
  rw [List.mem_flatten] at hs
  obtain ⟨l, hl, hsl⟩ := hs
  have h1 := h.1
  rw [List.all_eq_true] at h1
  have h2 := h1 l hl
  rw [List.all_eq_true] at h2
  have h3 := h2 s hsg
  rw [Bool.not_eq_true', decide_eq_false_iff_not] at h3
  exact h3 hsl

/-- Claim C9 as amended: in every tree freshly built by the constructor from a
symbol order whose groups are pairwise disjoint and a root variant unset on
those groups' symbols (as `create_root_variant` produces), every non-root
node's variant is possible w.r.t. the supplied possible variants and is
derived-from-or-equal to its parent's variant, at every depth.
(With overlapping groups the claim fails: see the counterexample.) -/
theorem c9_fresh_invariant (pvs : List Variant) (conds : List Part)
    (flat : List Sym) : ∀ (fuel : Nat) (remaining : List (List Sym))
    (cs : List Sym) (v : Variant),
    pairwiseDisjoint remaining = true →
    unsetOn v remaining.flatten = true →
    goodTreeF pvs fuel (build flat pvs conds remaining cs v) = true := by
  intro fuel
  induction fuel with
  | zero => intro remaining cs v _ _; rfl
  | succ fuel ih =>
    intro remaining cs v hdisj hunset
    unfold build
    by_cases hfin : isFinal v flat = true
    · rw [if_pos hfin]
      rfl
    · rw [if_neg hfin]
      cases remaining with
      | nil => rfl
      | cons g rest =>
        obtain ⟨hg, hrest⟩ := pairwiseDisjoint_spec g rest hdisj
        by_cases hge : g.isEmpty = true
        · show goodTreeF pvs (fuel + 1) (if g.isEmpty then _ else _) = true
          rw [if_pos hge]
          rfl
        · show goodTreeF pvs (fuel + 1) (if g.isEmpty then _ else _) = true
          rw [if_neg hge]
          show (List.all _ _) = true
          rw [List.all_eq_true]
          intro c hc
          simp only [VNode_children_mk] at hc
          simp only [VNode_variant_mk]
          rw [List.mem_map] at hc
          obtain ⟨w, hw, rfl⟩ := hc
          have hwposs : isPossible pvs w = true := List.of_mem_filter hw
          have hwmem := List.mem_of_mem_filter hw
          rw [List.mem_map] at hwmem
          obtain ⟨i, _, hwi⟩ := hwmem
          rw [Bool.and_eq_true, Bool.and_eq_true]
          have hflat : List.flatten (g :: rest) = g ++ rest.flatten :=
            List.flatten_cons
          have hunsetg : ∀ a ∈ v.attrs, a.symbol ∈ g → a.value = none := by
            intro a ha hag
            refine unsetOn_spec v _ hunset a ha ?_
            rw [hflat, List.mem_append]
            exact Or.inl hag
          refine ⟨⟨?_, ?_⟩, ?_⟩
          · rw [build_variant]
            exact hwposs
          · rw [build_variant]
            show isDerivedFromOrEqual w v = true
            rw [← hwi]
            exact deriveOne_isDerived v g (boolFromInteger i g.length) hunsetg
          · refine ih rest g w hrest ?_
            rw [← hwi]
            refine unsetOn_deriveOne v g _ rest.flatten hg ?_
            unfold unsetOn at hunset ⊢
            rw [List.all_eq_true] at hunset ⊢
            intro a ha
            have h0 := hunset a ha
            rw [Bool.or_eq_true] at h0 ⊢
            rcases h0 with h1 | h2
            · left
              rw [Bool.not_eq_true', decide_eq_false_iff_not] at h1 ⊢
              intro hmem
              refine h1 ?_
              rw [hflat, List.mem_append]
              exact Or.inr hmem
            · right
              exact h2

/-- Witness for C9 (amended): the end-to-end scenario's symbol order
`[[A], [B], [C]]` has pairwise-disjoint groups and the all-unset root
variant, so its tree satisfies the invariant (checked to depth 10). -/
theorem c9_fresh_invariant_witness :
    goodTreeF possibleVariants3 10
      (build ["A", "B", "C"] possibleVariants3 conds12 [["A"], ["B"], ["C"]] []
        (createRootVariant [["A"], ["B"], ["C"]])) = true :=
  c9_fresh_invariant possibleVariants3 conds12 ["A", "B", "C"] 10
    [["A"], ["B"], ["C"]] [] (createRootVariant [["A"], ["B"], ["C"]])
    (by decide) (by decide)

end VariantTree
